import Mathlib

/-!
Shallow embedding of `src/vector_of_kll.cpp` (a container of `d` parallel KLL
quantile sketches with bulk update, query, merge, collapse and per-index
serialization), together with theorems settling the specification claims
about it.  The KLL engine itself (`kll_sketch.hpp`) is an external
collaborator of this repository; it is modelled from the spec's contract.
-/

namespace VectorKll

/-- Modelled from the spec: the external KLL sketch engine (spec sections 2
and 4.3) is a single-stream approximate-quantile summary with parameter `k`.
The container only relies on the engine's contract (`get_n` counts updates,
`merge` combines streams, min/max are stream extremes, queries are functions
of the sketch state), so the engine is idealized here as retaining its full
update stream. -/
structure KllSketch where
  k : Nat
  values : List Int
deriving DecidableEq

/-- A freshly constructed KLL sketch with parameter `k` (`kll_sketch(k)`). -/
def kllEmpty (k : Nat) : KllSketch := ⟨k, []⟩

/-- Modelled from the spec: `kll_sketch::update(value)` feeds one value. -/
def kllUpdate (s : KllSketch) (v : Int) : KllSketch := ⟨s.k, s.values ++ [v]⟩

/-- Modelled from the spec: `kll_sketch::merge(other)` absorbs the other
sketch's stream; the receiver keeps its own parameter `k`. -/
def kllMerge (a b : KllSketch) : KllSketch := ⟨a.k, a.values ++ b.values⟩

/-- Modelled from the spec: `kll_sketch::get_n()`, the number of values seen. -/
def kllGetN (s : KllSketch) : Nat := s.values.length

/-- Modelled from the spec: `kll_sketch::is_empty()`. -/
def kllIsEmpty (s : KllSketch) : Bool := s.values.isEmpty

/-- Modelled from the spec: `kll_sketch::get_min_item()`; an empty sketch has
no minimum (the engine raises), surfaced here as `none`. -/
def kllGetMinItem (s : KllSketch) : Option Int :=
  s.values.foldl (fun acc v => match acc with
    | none => some v
    | some m => some (min m v)) none

/-- Modelled from the spec: `kll_sketch::get_max_item()`. -/
def kllGetMaxItem (s : KllSketch) : Option Int :=
  s.values.foldl (fun acc v => match acc with
    | none => some v
    | some m => some (max m v)) none

/-- Modelled from the spec: `kll_sketch::get_quantile(rank)`; the idealized
engine answers with the exact empirical quantile of its retained stream. -/
def kllGetQuantile (s : KllSketch) (r : ℚ) : Int :=
  (List.insertionSort (· ≤ ·) s.values).getD
    (min (r * (s.values.length : ℚ)).floor.toNat (s.values.length - 1)) 0

/-- Modelled from the spec: `kll_sketch::get_rank(value)`, a normalized rank. -/
def kllGetRank (s : KllSketch) (v : Int) : ℚ :=
  ((s.values.countP (fun x => decide (x ≤ v)) : ℚ)) / ((s.values.length : ℚ))

/-- Modelled from the spec: `kll_sketch::get_PMF(split_points, s)` returns
`s + 1` masses, one per interval delimited by the split points. -/
def kllPMF (s : KllSketch) (splits : List Int) : List ℚ :=
  (List.range (splits.length + 1)).map (fun j =>
    ((s.values.countP (fun v =>
        (decide (j = 0) || decide (splits.getD (j - 1) 0 ≤ v)) &&
        (decide (j = splits.length) || decide (v < splits.getD j 0)))) : ℚ)
      / ((s.values.length : ℚ)))

/-- Modelled from the spec: `kll_sketch::get_CDF(split_points, s)` returns
`s + 1` cumulative masses, the last one covering the whole stream. -/
def kllCDF (s : KllSketch) (splits : List Int) : List ℚ :=
  (List.range (splits.length + 1)).map (fun j =>
    if j = splits.length then ((s.values.length : ℚ)) / ((s.values.length : ℚ))
    else ((s.values.countP (fun v => decide (v < splits.getD j 0))) : ℚ)
      / ((s.values.length : ℚ)))

/-- Modelled from the spec: `kll_sketch::serialize()` produces an opaque byte
blob that `deserialize` reconstructs exactly (spec P6); the blob is therefore
identified with the sketch state it encodes. -/
def kllSerialize (s : KllSketch) : KllSketch := s

/-- Modelled from the spec: `kll_sketch::deserialize(bytes)` reconstructs the
sketch encoded by the blob. -/
def kllDeserialize (blob : KllSketch) : KllSketch := blob

/-- Modelled from the spec: `kll_sketch::to_string(print_levels, print_items)`
produces a textual summary; the spec leaves the format to the engine, so the
model uses a simple concrete summary. -/
def kllToString (printLevels printItems : Bool) (s : KllSketch) : String :=
  "KLL sketch summary: n = " ++ toString (kllGetN s)

/-- Model of an N-dimensional dense numeric input buffer (`nb::ndarray<T>`):
one-dimensional, two-dimensional (with the storage-order tag reported by
`check_order`: `'F'`, `'C'` or `'?'`), or higher-dimensional, of which
`update` only inspects the number of dimensions and the last-axis extent. -/
inductive NDArray where
  | d1 (xs : List Int)
  | d2 (cols : Nat) (rows : List (List Int)) (order : Char)
  | dN (ndim : Nat) (lastAxis : Nat)
deriving DecidableEq

/-- `items.ndim()` of the modelled buffer. -/
def ndimOf : NDArray → Nat
  | .d1 _ => 1
  | .d2 _ _ _ => 2
  | .dN n _ => n

/-- `items.shape(ndim - 1)`, the last-axis extent of the modelled buffer. -/
def lastAxisExtent : NDArray → Nat
  | .d1 xs => xs.length
  | .d2 cols _ _ => cols
  | .dN _ la => la

/-- The `std::invalid_argument` errors thrown by `vector_of_kll.cpp`, with
the numeric parameters carried by each message. -/
inductive ContainerError where
  | dTooSmall (d : Nat)
  | badRowWidth (d found : Nat)
  | badNdim (ndim : Nat)
  | invalidIndex (d idx : Nat)
  | dimMismatch (dself dother : Nat)
deriving DecidableEq

/-- `static_cast<uint32_t>(v)` applied to a C `int` selector element. -/
def castU32 (v : Int) : Nat := (v % (2 ^ 32)).toNat

/-- The validating loop of `get_indices` (the `else` branch for selectors
whose size is not 1): each element is cast to `uint32_t` and accepted when
the cast is `< d`, otherwise `invalid_argument` carrying `d` and the cast is
thrown at the first offender. -/
def resolveMany (d : Nat) : List Int → Except ContainerError (List Nat)
  | [] => .ok []
  | v :: rest =>
    if castU32 v < d then
      match resolveMany d rest with
      | .ok tl => .ok (castU32 v :: tl)
      | .error e => .error e
    else .error (.invalidIndex d (castU32 v))

/-- `vector_of_kll_sketches::get_indices(isk)` for a container of width `d`:
a size-1 selector equal to `-1` means all indices `[0, d)`; any other size-1
selector is cast to `uint32_t` and returned unchecked; otherwise every
element is range-checked via `resolveMany`. -/
def get_indices (d : Nat) (isk : List Int) : Except ContainerError (List Nat) :=
  match isk with
  | [v] => if v = -1 then .ok (List.range d) else .ok [castU32 v]
  | _ => resolveMany d isk

/-- `vector_of_kll_sketches<T>`: parameter `k`, channel count `d`, and the
owned sketches `sketches_`. -/
structure VectorOfKll where
  k : Nat
  d : Nat
  sketches : List KllSketch
deriving DecidableEq

/-- The constructor `vector_of_kll_sketches(k, d)`: rejects `d < 1`, else
spawns `d` sketches of parameter `k`. -/
def construct (k d : Nat) : Except ContainerError VectorOfKll :=
  if d < 1 then .error (.dTooSmall d)
  else .ok ⟨k, d, List.replicate d (kllEmpty k)⟩

/-- `sketches_[i]` (in-range access; the default is irrelevant whenever
`i < c.sketches.length`). -/
def sketchAt (c : VectorOfKll) (i : Nat) : KllSketch :=
  c.sketches.getD i (kllEmpty c.k)

/-- The inner loop of the row-major / 1-D update path: one record `r` is
distributed across the sketch vector, sketch `j` receiving `r[j]`; the first
argument below `j₀` is the channel index of the head sketch. -/
def updRowAux (r : List Int) : Nat → List KllSketch → List KllSketch
  | _, [] => []
  | j, s :: rest => kllUpdate s (r.getD j 0) :: updRowAux r (j + 1) rest

/-- The column-major (`'F'`) update path: the outer loop walks channels, so
sketch `j` absorbs the whole column `j` of `rows` before the next sketch is
touched. -/
def updColsAux (rows : List (List Int)) : Nat → List KllSketch → List KllSketch
  | _, [] => []
  | j, s :: rest =>
    rows.foldl (fun sk row => kllUpdate sk (row.getD j 0)) s
      :: updColsAux rows (j + 1) rest

/-- `vector_of_kll_sketches::update(items)`: the last-axis extent must equal
`d` (checked first), 1-D input is a single record, 2-D input is dispatched
on `check_order` (`'F'` takes the column-major loop, anything else the
row-major loop), and any other rank is rejected. -/
def update (c : VectorOfKll) (items : NDArray) : Except ContainerError VectorOfKll :=
  if lastAxisExtent items ≠ c.d then
    .error (.badRowWidth c.d (lastAxisExtent items))
  else
    match items with
    | .d1 xs => .ok ⟨c.k, c.d, updRowAux xs 0 c.sketches⟩
    | .d2 _ rows ord =>
      if ord = 'F' then .ok ⟨c.k, c.d, updColsAux rows 0 c.sketches⟩
      else .ok ⟨c.k, c.d, rows.foldl (fun sks r => updRowAux r 0 sks) c.sketches⟩
    | .dN n _ => .error (.badNdim n)

/-- `vector_of_kll_sketches::merge(other)`: requires equal `d` (checked
before any per-sketch merge), then merges positionally. `other` is taken by
const reference, so the embedding returns only the new receiver state. -/
def merge (a b : VectorOfKll) : Except ContainerError VectorOfKll :=
  if a.d ≠ b.d then .error (.dimMismatch a.d b.d)
  else .ok ⟨a.k, a.d, List.zipWith kllMerge a.sketches b.sketches⟩

/-- `vector_of_kll_sketches::collapse(isk)` exactly as written in the source:
a fresh sketch of parameter `k_` merges `sketches_[idx]` for `idx` running
over `0 .. isk.size() - 1`; the loop indexes with its own counter and never
consults the selector values (`get_indices` is not called). -/
def collapse (c : VectorOfKll) (isk : List Int) : KllSketch :=
  (List.range isk.length).foldl
    (fun res idx => kllMerge res (c.sketches.getD idx (kllEmpty c.k)))
    (kllEmpty c.k)

/-- `vector_of_kll_sketches::get_n()`: per-channel counts, channel order. -/
def get_n (c : VectorOfKll) : List Nat := c.sketches.map kllGetN

/-- `vector_of_kll_sketches::get_min_values()`. -/
def get_min_values (c : VectorOfKll) : List (Option Int) :=
  c.sketches.map kllGetMinItem

/-- `vector_of_kll_sketches::get_max_values()`. -/
def get_max_values (c : VectorOfKll) : List (Option Int) :=
  c.sketches.map kllGetMaxItem

/-- `vector_of_kll_sketches::get_quantiles(ranks, isk)`: resolve the
selector, then build one row per selected sketch, one column per rank. -/
def get_quantiles (c : VectorOfKll) (ranks : List ℚ) (isk : List Int) :
    Except ContainerError (List (List Int)) :=
  match get_indices c.d isk with
  | .error e => .error e
  | .ok inds => .ok (inds.map (fun i => ranks.map (kllGetQuantile (sketchAt c i))))

/-- `vector_of_kll_sketches::get_ranks(values, isk)`. -/
def get_ranks (c : VectorOfKll) (vals : List Int) (isk : List Int) :
    Except ContainerError (List (List ℚ)) :=
  match get_indices c.d isk with
  | .error e => .error e
  | .ok inds => .ok (inds.map (fun i => vals.map (kllGetRank (sketchAt c i))))

/-- `vector_of_kll_sketches::get_pmf(split_points, isk)`: each row copies the
engine PMF entries `0 .. s` of the selected sketch. -/
def get_pmf (c : VectorOfKll) (splits : List Int) (isk : List Int) :
    Except ContainerError (List (List ℚ)) :=
  match get_indices c.d isk with
  | .error e => .error e
  | .ok inds => .ok (inds.map (fun i => kllPMF (sketchAt c i) splits))

/-- `vector_of_kll_sketches::get_cdf(split_points, isk)`. -/
def get_cdf (c : VectorOfKll) (splits : List Int) (isk : List Int) :
    Except ContainerError (List (List ℚ)) :=
  match get_indices c.d isk with
  | .error e => .error e
  | .ok inds => .ok (inds.map (fun i => kllCDF (sketchAt c i) splits))

/-- `vector_of_kll_sketches::serialize(isk)`: one opaque blob per selected
sketch, in selector order. -/
def serialize (c : VectorOfKll) (isk : List Int) :
    Except ContainerError (List KllSketch) :=
  match get_indices c.d isk with
  | .error e => .error e
  | .ok inds => .ok (inds.map (fun i => kllSerialize (sketchAt c i)))

/-- `vector_of_kll_sketches::deserialize(sk_bytes, idx)`: rejects
`idx >= d`, else replaces `sketches_[idx]` with the reconstructed sketch.
The source's length argument reads `skStr.length()` where `skStr` is an
undeclared identifier (the byte argument is named `sk_bytes`); the
reconstruction is modelled from the spec: `deserialize(bytes, idx)` installs
the sketch encoded by `bytes` at position `idx`. -/
def deserialize (c : VectorOfKll) (blob : KllSketch) (idx : Nat) :
    Except ContainerError VectorOfKll :=
  if c.d ≤ idx then .error (.invalidIndex c.d idx)
  else .ok ⟨c.k, c.d, c.sketches.set idx (kllDeserialize blob)⟩

/-- `vector_of_kll_sketches::to_string(print_levels, print_items)` exactly as
written: stream each sketch's summary, preceded by a single `"\n"` whenever
it is not the first one. -/
def to_string (c : VectorOfKll) (printLevels printItems : Bool) : String :=
  match c.sketches.map (kllToString printLevels printItems) with
  | [] => ""
  | h :: t => t.foldl (fun acc s => acc ++ "\n" ++ s) h

/-- Spec-side formulation for comparison with `to_string`: the summaries
joined by an explicit separator. -/
def joinedBy (sep : String) : List String → String
  | [] => ""
  | h :: t => t.foldl (fun acc s => acc ++ sep ++ s) h

/-! ### Helper lemmas about the update loops and list access -/

theorem updRowAux_length (r : List Int) :
    ∀ (j : Nat) (sks : List KllSketch), (updRowAux r j sks).length = sks.length := by
  intro j sks
  induction sks generalizing j with
  | nil => rfl
  | cons s rest ih => simp [updRowAux, ih]

theorem updColsAux_length (rows : List (List Int)) :
    ∀ (j : Nat) (sks : List KllSketch), (updColsAux rows j sks).length = sks.length := by
  intro j sks
  induction sks generalizing j with
  | nil => rfl
  | cons s rest ih => simp [updColsAux, ih]

theorem updColsAux_nil_rows :
    ∀ (j : Nat) (sks : List KllSketch), updColsAux [] j sks = sks := by
  intro j sks
  induction sks generalizing j with
  | nil => rfl
  | cons s rest ih => simp [updColsAux, ih]

theorem updColsAux_updRowAux (r : List Int) (rows : List (List Int)) :
    ∀ (j : Nat) (sks : List KllSketch),
    updColsAux rows j (updRowAux r j sks) = updColsAux (r :: rows) j sks := by
  intro j sks
  induction sks generalizing j with
  | nil => rfl
  | cons s rest ih =>
    simp only [updRowAux, updColsAux, List.foldl_cons]
    rw [ih (j + 1)]

theorem foldl_updRowAux_eq_updColsAux (rows : List (List Int)) :
    ∀ (j : Nat) (sks : List KllSketch),
    rows.foldl (fun sks r => updRowAux r j sks) sks = updColsAux rows j sks := by
  induction rows with
  | nil => intro j sks; simp [updColsAux_nil_rows]
  | cons r rest ih =>
    intro j sks
    simp only [List.foldl_cons]
    rw [ih, updColsAux_updRowAux]

theorem getD_map {α β : Type} (f : α → β) (l : List α) (r : Nat) (a : α) (b : β)
    (hr : r < l.length) : (l.map f).getD r b = f (l.getD r a) := by
  induction l generalizing r with
  | nil => simp at hr
  | cons x xs ih =>
    cases r with
    | zero => rfl
    | succ n =>
      simp only [List.map_cons, List.getD_cons_succ]
      exact ih n (by simp at hr; omega)

theorem getD_zipWith (as bs : List KllSketch) (i : Nat) (da db dc : KllSketch)
    (ha : i < as.length) (hb : i < bs.length) :
    (List.zipWith kllMerge as bs).getD i dc = kllMerge (as.getD i da) (bs.getD i db) := by
  induction as generalizing bs i with
  | nil => simp at ha
  | cons x as' ih =>
    cases bs with
    | nil => simp at hb
    | cons y bs' =>
      cases i with
      | zero => rfl
      | succ n =>
        simp only [List.zipWith_cons_cons, List.getD_cons_succ]
        exact ih bs' n (by simp at ha; omega) (by simp at hb; omega)

theorem updRowAux_getD (r : List Int) :
    ∀ (j0 j : Nat) (sks : List KllSketch) (dflt : KllSketch), j < sks.length →
    (updRowAux r j0 sks).getD j dflt =
      kllUpdate (sks.getD j dflt) (r.getD (j0 + j) 0) := by
  intro j0 j sks
  induction sks generalizing j0 j with
  | nil => intro dflt h; simp at h
  | cons s rest ih =>
    intro dflt h
    cases j with
    | zero => simp [updRowAux]
    | succ n =>
      simp only [updRowAux, List.getD_cons_succ]
      rw [ih (j0 + 1) n _ (by simp at h; omega)]
      have harith : j0 + 1 + n = j0 + (n + 1) := by omega
      rw [harith]

theorem updColsAux_getD (rows : List (List Int)) :
    ∀ (j0 j : Nat) (sks : List KllSketch) (dflt : KllSketch), j < sks.length →
    (updColsAux rows j0 sks).getD j dflt =
      rows.foldl (fun sk row => kllUpdate sk (row.getD (j0 + j) 0)) (sks.getD j dflt) := by
  intro j0 j sks
  induction sks generalizing j0 j with
  | nil => intro dflt h; simp at h
  | cons s rest ih =>
    intro dflt h
    cases j with
    | zero => simp [updColsAux]
    | succ n =>
      simp only [updColsAux, List.getD_cons_succ]
      rw [ih (j0 + 1) n _ (by simp at h; omega)]
      have harith : j0 + 1 + n = j0 + (n + 1) := by omega
      rw [harith]

theorem foldl_kllUpdate_values (rows : List (List Int)) (j : Nat) :
    ∀ (s : KllSketch),
    (rows.foldl (fun sk row => kllUpdate sk (row.getD j 0)) s).values =
      s.values ++ rows.map (fun row => row.getD j 0) := by
  induction rows with
  | nil => intro s; simp
  | cons r rest ih =>
    intro s
    simp only [List.foldl_cons, List.map_cons]
    rw [ih]
    simp [kllUpdate]

theorem get_n_getD (c : VectorOfKll) (i : Nat) (h : i < c.sketches.length) :
    (get_n c).getD i 0 = (sketchAt c i).values.length := by
  unfold get_n sketchAt
  rw [getD_map kllGetN c.sketches i (kllEmpty c.k) 0 h]
  rfl

/-- Per-channel effect of the column-major 2-D update loop. -/
theorem updCols_spec (c : VectorOfKll) (hw : c.sketches.length = c.d)
    (rows : List (List Int)) (j : Nat) (hj : j < c.d) :
    (sketchAt ⟨c.k, c.d, updColsAux rows 0 c.sketches⟩ j).values =
      (sketchAt c j).values ++ rows.map (fun row => row.getD j 0) ∧
    (get_n ⟨c.k, c.d, updColsAux rows 0 c.sketches⟩).getD j 0 =
      (get_n c).getD j 0 + rows.length := by
  have hj' : j < c.sketches.length := by omega
  have hv : (sketchAt ⟨c.k, c.d, updColsAux rows 0 c.sketches⟩ j).values =
      (sketchAt c j).values ++ rows.map (fun row => row.getD j 0) := by
    show ((updColsAux rows 0 c.sketches).getD j (kllEmpty c.k)).values = _
    rw [updColsAux_getD rows 0 j c.sketches (kllEmpty c.k) hj']
    simp only [Nat.zero_add]
    exact foldl_kllUpdate_values rows j (c.sketches.getD j (kllEmpty c.k))
  refine ⟨hv, ?_⟩
  have hlen : j < (updColsAux rows 0 c.sketches).length := by
    rw [updColsAux_length]; omega
  rw [get_n_getD ⟨c.k, c.d, updColsAux rows 0 c.sketches⟩ j hlen, hv,
    get_n_getD c j hj']
  simp

/-- Per-channel effect of the 1-D (single record) update loop. -/
theorem updRow_spec (c : VectorOfKll) (hw : c.sketches.length = c.d)
    (xs : List Int) (j : Nat) (hj : j < c.d) :
    (sketchAt ⟨c.k, c.d, updRowAux xs 0 c.sketches⟩ j).values =
      (sketchAt c j).values ++ [xs.getD j 0] ∧
    (get_n ⟨c.k, c.d, updRowAux xs 0 c.sketches⟩).getD j 0 =
      (get_n c).getD j 0 + 1 := by
  have hj' : j < c.sketches.length := by omega
  have hv : (sketchAt ⟨c.k, c.d, updRowAux xs 0 c.sketches⟩ j).values =
      (sketchAt c j).values ++ [xs.getD j 0] := by
    show ((updRowAux xs 0 c.sketches).getD j (kllEmpty c.k)).values = _
    rw [updRowAux_getD xs 0 j c.sketches (kllEmpty c.k) hj']
    simp [kllUpdate, sketchAt]
  refine ⟨hv, ?_⟩
  have hlen : j < (updRowAux xs 0 c.sketches).length := by
    rw [updRowAux_length]; omega
  rw [get_n_getD ⟨c.k, c.d, updRowAux xs 0 c.sketches⟩ j hlen, hv,
    get_n_getD c j hj']
  simp

/-! ### Concrete sample containers used by witnesses and counterexamples -/

/-- A (k = 200, d = 2) container with both channels still empty. -/
def cEmpty2 : VectorOfKll := ⟨200, 2, [kllEmpty 200, kllEmpty 200]⟩

/-- A (k = 200, d = 3) container with all channels still empty. -/
def cEmpty3 : VectorOfKll := ⟨200, 3, [kllEmpty 200, kllEmpty 200, kllEmpty 200]⟩

/-- A (k = 200, d = 4) container with all channels still empty. -/
def cEmpty4 : VectorOfKll :=
  ⟨200, 4, [kllEmpty 200, kllEmpty 200, kllEmpty 200, kllEmpty 200]⟩

/-- A (k = 200, d = 2) container holding one value per channel. -/
def sampleA : VectorOfKll := ⟨200, 2, [⟨200, [1]⟩, ⟨200, [10]⟩]⟩

/-- A second (k = 200, d = 2) container holding one value per channel. -/
def sampleB : VectorOfKll := ⟨200, 2, [⟨200, [2]⟩, ⟨200, [20]⟩]⟩

/-- The result of merging `sampleA` with `sampleB`. -/
def mergedAB : VectorOfKll := ⟨200, 2, [⟨200, [1, 2]⟩, ⟨200, [10, 20]⟩]⟩

/-- The spec's collapse scenario: a (k = 200, d = 2) container built through
the public API and updated with the row-major records [[1, 2], [3, 4]]. -/
def c1test : Except ContainerError VectorOfKll := do
  let c ← construct 200 2
  update c (.d2 2 [[1, 2], [3, 4]] 'C')

/-! ### Claim theorems -/

/-- C1: the claim says `collapse(isk)` merges the sketches selected by
`resolve(isk, d)` in selector order, so `collapse([-1])` on the container
updated with [[1, 2], [3, 4]] would report n = 4, min = 1, max = 4.  The
code instead merges `sketches_[idx]` for `idx` ranging over the *positions*
`0 .. |isk| - 1`, never consulting the selector values, so `collapse([-1])`
merges only channel 0 and reports n = 2, min = 1, max = 3 (the fresh
sketch's parameter is the container's k = 200, as claimed). -/
theorem claim_c1_collapse_eval :
    c1test.map (fun c => (kllGetN (collapse c [(-1 : Int)]),
        kllGetMinItem (collapse c [(-1 : Int)]),
        kllGetMaxItem (collapse c [(-1 : Int)]),
        (collapse c [(-1 : Int)]).k))
      = .ok (2, some 1, some 3, 200) ∧ (2 : Nat) ≠ 4 := by
  exact ⟨rfl, by decide⟩

/-- C3: construction with d = 0, update with a wrong last-axis extent,
update with more than 2 dimensions, deserialize with idx ≥ d, and merge
with mismatched d are all rejected with an invalid-argument error; being
rejections of the embedded (pure) operations, they produce no new container
state, and the merge rejection happens before any per-sketch merge. -/
theorem claim_c3_rejections :
    (∀ k, construct k 0 = .error (.dTooSmall 0)) ∧
    (∀ (c : VectorOfKll) (items : NDArray), lastAxisExtent items ≠ c.d →
      update c items = .error (.badRowWidth c.d (lastAxisExtent items))) ∧
    (∀ (c : VectorOfKll) (n la : Nat), 2 < n → la = c.d →
      update c (.dN n la) = .error (.badNdim n)) ∧
    (∀ (c : VectorOfKll) (blob : KllSketch) (idx : Nat), c.d ≤ idx →
      deserialize c blob idx = .error (.invalidIndex c.d idx)) ∧
    (∀ (a b : VectorOfKll), a.d ≠ b.d → merge a b = .error (.dimMismatch a.d b.d)) := by
  refine ⟨fun k => rfl, ?_, ?_, ?_, ?_⟩
  · intro c items h
    unfold update
    rw [if_pos h]
  · intro c n la hn hla
    unfold update
    rw [if_neg (show ¬ lastAxisExtent (.dN n la) ≠ c.d by simp [lastAxisExtent, hla])]
  · intro c blob idx h
    unfold deserialize
    rw [if_pos h]
  · intro a b h
    unfold merge
    rw [if_pos h]

/-- C3 witness: the five rejections at concrete inputs. -/
theorem claim_c3_rejections_witness :
    construct 7 0 = .error (.dTooSmall 0) ∧
    update cEmpty2 (.d1 [1]) = .error (.badRowWidth 2 1) ∧
    update cEmpty2 (.dN 3 2) = .error (.badNdim 3) ∧
    deserialize cEmpty2 (kllEmpty 200) 5 = .error (.invalidIndex 2 5) ∧
    merge cEmpty2 cEmpty3 = .error (.dimMismatch 2 3) := by
  obtain ⟨h1, h2, h3, h4, h5⟩ := claim_c3_rejections
  exact ⟨h1 7, h2 cEmpty2 (.d1 [1]) (by decide), h3 cEmpty2 3 2 (by decide) rfl,
    h4 cEmpty2 (kllEmpty 200) 5 (by decide), h5 cEmpty2 cEmpty3 (by decide)⟩

/-- C4: merging containers of equal width pairs the sketches positionally
(channel i of the result carries A's stream followed by B's), so each
channel count is the sum of the two prior counts; `other` is passed by
const reference, so the embedded `merge` is a pure function of both
containers and leaves `b` untouched. -/
theorem claim_c4_merge (a b : VectorOfKll)
    (ha : a.sketches.length = a.d) (hb : b.sketches.length = b.d)
    (hd : a.d = b.d) (c' : VectorOfKll) (h : merge a b = .ok c') :
    (∀ i, i < a.d →
      (sketchAt c' i).values = (sketchAt a i).values ++ (sketchAt b i).values) ∧
    (∀ i, i < a.d →
      (get_n c').getD i 0 = (get_n a).getD i 0 + (get_n b).getD i 0) := by
  have hne : ¬ a.d ≠ b.d := by omega
  unfold merge at h
  rw [if_neg hne] at h
  injection h with h
  subst h
  have hv : ∀ i, i < a.d →
      (sketchAt ⟨a.k, a.d, List.zipWith kllMerge a.sketches b.sketches⟩ i).values =
        (sketchAt a i).values ++ (sketchAt b i).values := by
    intro i hi
    show ((List.zipWith kllMerge a.sketches b.sketches).getD i (kllEmpty a.k)).values = _
    rw [getD_zipWith a.sketches b.sketches i (kllEmpty a.k) (kllEmpty b.k)
      (kllEmpty a.k) (by omega) (by omega)]
    rfl
  refine ⟨hv, ?_⟩
  intro i hi
  have hlen : i < (List.zipWith kllMerge a.sketches b.sketches).length := by
    rw [List.length_zipWith]; omega
  rw [get_n_getD ⟨a.k, a.d, List.zipWith kllMerge a.sketches b.sketches⟩ i hlen,
    hv i hi, get_n_getD a i (by omega), get_n_getD b i (by omega)]
  simp

/-- C4 witness: merging the two concrete single-value-per-channel
containers. -/
theorem claim_c4_merge_witness :
    (sketchAt mergedAB 0).values = (sketchAt sampleA 0).values ++ (sketchAt sampleB 0).values ∧
    (get_n mergedAB).getD 0 0 = (get_n sampleA).getD 0 0 + (get_n sampleB).getD 0 0 ∧
    (sketchAt mergedAB 1).values = (sketchAt sampleA 1).values ++ (sketchAt sampleB 1).values := by
  obtain ⟨h1, h2⟩ := claim_c4_merge sampleA sampleB rfl rfl rfl mergedAB rfl
  exact ⟨h1 0 (by decide), h2 0 (by decide), h1 1 (by decide)⟩

/-- C6: a 2-D update of shape (n, d) appends to every channel j exactly the
n values of column j (one update per row), so every per-channel count grows
by exactly n, under either storage-order dispatch; a 1-D update of length d
gives each sketch exactly one update with its own element. -/
theorem claim_c6_update_counting (c : VectorOfKll) (hw : c.sketches.length = c.d) :
    (∀ (cols : Nat) (rows : List (List Int)) (ord : Char) (c' : VectorOfKll),
      cols = c.d → update c (.d2 cols rows ord) = .ok c' →
      ∀ j, j < c.d →
        (sketchAt c' j).values =
          (sketchAt c j).values ++ rows.map (fun row => row.getD j 0) ∧
        (get_n c').getD j 0 = (get_n c).getD j 0 + rows.length) ∧
    (∀ (xs : List Int) (c' : VectorOfKll),
      xs.length = c.d → update c (.d1 xs) = .ok c' →
      ∀ j, j < c.d →
        (sketchAt c' j).values = (sketchAt c j).values ++ [xs.getD j 0] ∧
        (get_n c').getD j 0 = (get_n c).getD j 0 + 1) := by
  constructor
  · intro cols rows ord c' hc h
    unfold update at h
    rw [if_neg (show ¬ lastAxisExtent (.d2 cols rows ord) ≠ c.d by
      simp [lastAxisExtent, hc])] at h
    have h2 : (if ord = 'F' then
          Except.ok (⟨c.k, c.d, updColsAux rows 0 c.sketches⟩ : VectorOfKll)
        else Except.ok
          (⟨c.k, c.d, List.foldl (fun sks r => updRowAux r 0 sks) c.sketches rows⟩ :
            VectorOfKll)) = Except.ok c' := h
    by_cases ho : ord = 'F'
    · rw [if_pos ho] at h2
      injection h2 with h2
      subst h2
      intro j hj
      exact updCols_spec c hw rows j hj
    · rw [if_neg ho] at h2
      injection h2 with h2
      subst h2
      intro j hj
      have := updCols_spec c hw rows j hj
      rwa [← foldl_updRowAux_eq_updColsAux] at this
  · intro xs c' hx h
    unfold update at h
    rw [if_neg (show ¬ lastAxisExtent (.d1 xs) ≠ c.d by
      simp [lastAxisExtent, hx])] at h
    have h2 : Except.ok (⟨c.k, c.d, updRowAux xs 0 c.sketches⟩ : VectorOfKll) =
        Except.ok c' := h
    injection h2 with h2
    subst h2
    intro j hj
    exact updRow_spec c hw xs j hj

/-- C6 witness: updating the empty (k = 200, d = 2) container with the 2-D
buffer [[1, 2], [3, 4]] (row-major) and with the 1-D record [7, 8]. -/
theorem claim_c6_update_counting_witness :
    ((sketchAt ⟨200, 2, [⟨200, [1, 3]⟩, ⟨200, [2, 4]⟩]⟩ 0).values =
        (sketchAt cEmpty2 0).values ++ [[1, 2], [3, 4]].map (fun row => row.getD 0 0) ∧
      (get_n ⟨200, 2, [⟨200, [1, 3]⟩, ⟨200, [2, 4]⟩]⟩).getD 0 0 =
        (get_n cEmpty2).getD 0 0 + 2) ∧
    ((sketchAt ⟨200, 2, [⟨200, [7]⟩, ⟨200, [8]⟩]⟩ 1).values =
        (sketchAt cEmpty2 1).values ++ [[7, 8].getD 1 0] ∧
      (get_n ⟨200, 2, [⟨200, [7]⟩, ⟨200, [8]⟩]⟩).getD 1 0 =
        (get_n cEmpty2).getD 1 0 + 1) := by
  obtain ⟨h2d, h1d⟩ := claim_c6_update_counting cEmpty2 rfl
  exact ⟨h2d 2 [[1, 2], [3, 4]] 'C' ⟨200, 2, [⟨200, [1, 3]⟩, ⟨200, [2, 4]⟩]⟩ rfl rfl 0 (by decide),
    h1d [7, 8] ⟨200, 2, [⟨200, [7]⟩, ⟨200, [8]⟩]⟩ rfl rfl 1 (by decide)⟩

/-- C7: for the same 2-D values, the column-major (`'F'`) traversal — outer
loop over channels, inner over rows — and the row-major/unknown traversal —
outer loop over rows, inner over channels — produce identical `update`
results; in particular they deliver the same multiset of update values to
each sketch `S[j]`. -/
theorem claim_c7_layout_independence (c : VectorOfKll) (cols : Nat)
    (rows : List (List Int)) (j : Nat) :
    update c (.d2 cols rows 'F') = update c (.d2 cols rows '?') ∧
    ((((updColsAux rows 0 c.sketches).getD j (kllEmpty c.k)).values : Multiset Int) =
      (((List.foldl (fun sks r => updRowAux r 0 sks) c.sketches rows).getD j
        (kllEmpty c.k)).values : Multiset Int)) := by
  constructor
  · unfold update
    by_cases h : lastAxisExtent (.d2 cols rows 'F') ≠ c.d
    · rw [if_pos h, if_pos (show lastAxisExtent (.d2 cols rows '?') ≠ c.d from h)]
      rfl
    · rw [if_neg h, if_neg (show ¬ lastAxisExtent (.d2 cols rows '?') ≠ c.d from h)]
      show (if ('F' : Char) = 'F' then
          Except.ok (⟨c.k, c.d, updColsAux rows 0 c.sketches⟩ : VectorOfKll)
        else Except.ok
          ⟨c.k, c.d, List.foldl (fun sks r => updRowAux r 0 sks) c.sketches rows⟩)
        = (if ('?' : Char) = 'F' then
          Except.ok (⟨c.k, c.d, updColsAux rows 0 c.sketches⟩ : VectorOfKll)
        else Except.ok
          ⟨c.k, c.d, List.foldl (fun sks r => updRowAux r 0 sks) c.sketches rows⟩)
      rw [if_pos rfl, if_neg (by decide)]
      rw [foldl_updRowAux_eq_updColsAux]
  · rw [foldl_updRowAux_eq_updColsAux]

/-! ### Lemmas about the index resolver -/

theorem resolveMany_ok (d : Nat) :
    ∀ (l : List Int), (∀ w ∈ l, castU32 w < d) →
    resolveMany d l = .ok (l.map castU32) := by
  intro l
  induction l with
  | nil => intro _; rfl
  | cons v rest ih =>
    intro h
    have hv : castU32 v < d := h v (by simp)
    unfold resolveMany
    rw [if_pos hv, ih (fun w hw => h w (by simp [hw]))]
    rfl

theorem resolveMany_error (d : Nat) (u : Int) (post : List Int) (hu : d ≤ castU32 u) :
    ∀ (pre : List Int), (∀ w ∈ pre, castU32 w < d) →
    resolveMany d (pre ++ u :: post) = .error (.invalidIndex d (castU32 u)) := by
  intro pre
  induction pre with
  | nil =>
    intro _
    rw [List.nil_append]
    unfold resolveMany
    rw [if_neg (by omega)]
  | cons w pre' ih =>
    intro h
    have hw : castU32 w < d := h w (by simp)
    rw [List.cons_append]
    unfold resolveMany
    rw [if_pos hw, ih (fun x hx => h x (by simp [hx]))]

theorem get_indices_of_ne_singleton (d : Nat) (isk : List Int)
    (h : isk.length ≠ 1) : get_indices d isk = resolveMany d isk := by
  cases isk with
  | nil => rfl
  | cons a t =>
    cases t with
    | nil => simp at h
    | cons b t2 => rfl

theorem castU32_of_nonneg (w : Int) (h0 : 0 ≤ w) (h1 : w < 2 ^ 31) :
    castU32 w = w.toNat := by
  unfold castU32
  have e32 : (2 : Int) ^ 32 = 4294967296 := by norm_num
  have e31 : (2 : Int) ^ 31 = 2147483648 := by norm_num
  rw [e31] at h1
  rw [e32]
  omega

/-- C2 (amended): the resolver expands the lone sentinel `-1` to `[0, d)`;
any other length-1 selector is returned as the unchecked singleton of its
uint32 cast (equal to the element itself when it is non-negative); a longer
selector is validated elementwise through the uint32 cast — all casts below
`d` yield the order-preserved cast sequence (the input itself when every
element lies in `[0, d)`), and otherwise the error carries `d` and the cast
of the first offending element (not the original signed value). -/
theorem claim_c2_amended (d : Nat) (v : Int) (isk pre post : List Int) (u : Int) :
    (get_indices d [(-1 : Int)] = .ok (List.range d)) ∧
    (0 ≤ v → v < 2 ^ 31 → get_indices d [v] = .ok [v.toNat]) ∧
    (1 < isk.length → (∀ w ∈ isk, castU32 w < d) →
      get_indices d isk = .ok (isk.map castU32)) ∧
    (1 < (pre ++ u :: post).length → (∀ w ∈ pre, castU32 w < d) → d ≤ castU32 u →
      get_indices d (pre ++ u :: post) = .error (.invalidIndex d (castU32 u))) ∧
    (1 < isk.length → (∀ w ∈ isk, 0 ≤ w ∧ w < (d : Int) ∧ w < 2 ^ 31) →
      get_indices d isk = .ok (isk.map Int.toNat)) := by
  have hcast_lt : ∀ (w : Int), 0 ≤ w → w < (d : Int) → w < 2 ^ 31 → castU32 w < d := by
    intro w h0 hwd h31
    rw [castU32_of_nonneg w h0 h31]
    omega
  refine ⟨rfl, ?_, ?_, ?_, ?_⟩
  · intro h0 h31
    have hne : v ≠ -1 := by omega
    show (if v = -1 then Except.ok (List.range d) else Except.ok [castU32 v]) =
      Except.ok [v.toNat]
    rw [if_neg hne, castU32_of_nonneg v h0 h31]
  · intro hlen hall
    rw [get_indices_of_ne_singleton d isk (by omega)]
    exact resolveMany_ok d isk hall
  · intro hlen hpre hu
    rw [get_indices_of_ne_singleton d (pre ++ u :: post) (by omega)]
    exact resolveMany_error d u post hu pre hpre
  · intro hlen hall
    rw [get_indices_of_ne_singleton d isk (by omega)]
    rw [resolveMany_ok d isk
      (fun w hw => hcast_lt w (hall w hw).1 (hall w hw).2.1 (hall w hw).2.2)]
    congr 1
    exact List.map_congr_left
      (fun w hw => castU32_of_nonneg w (hall w hw).1 (hall w hw).2.2)

/-- C2 counterexample: the claim's third clause fails on the code in two
ways.  With `d = 2^32 - 1` the selector `[-2, -2]` violates `0 ≤ v < d` yet
is accepted (each cast `2^32 - 2` is below `d`); and for the selector
`[0, -1]` with `d = 2`, the invalid-argument error carries the cast
`2^32 - 1 = 4294967295`, not the offending element `-1`. -/
theorem claim_c2_counterexample :
    (get_indices (2 ^ 32 - 1) [(-2 : Int), (-2 : Int)] =
      .ok [2 ^ 32 - 2, 2 ^ 32 - 2]) ∧
    ¬ ((0 : Int) ≤ -2) ∧
    (get_indices 2 [(0 : Int), (-1 : Int)] =
      .error (.invalidIndex 2 (2 ^ 32 - 1))) ∧
    ((2 ^ 32 - 1 : Int) ≠ -1) := by
  exact ⟨rfl, by decide, rfl, by decide⟩

/-- C2 witness: the amended resolver behavior at `d = 3`. -/
theorem claim_c2_amended_witness :
    (get_indices 3 [(-1 : Int)] = .ok (List.range 3)) ∧
    (get_indices 3 [(2 : Int)] = .ok [(2 : Int).toNat]) ∧
    (get_indices 3 [(0 : Int), 1] = .ok ([(0 : Int), 1].map castU32)) ∧
    (get_indices 3 ([(0 : Int)] ++ (-1 : Int) :: [(2 : Int)]) =
      .error (.invalidIndex 3 (castU32 (-1)))) ∧
    (get_indices 3 [(1 : Int), 1] = .ok ([(1 : Int), 1].map Int.toNat)) := by
  obtain ⟨h1, h2, h3, h4, -⟩ := claim_c2_amended 3 2 [(0 : Int), 1] [(0 : Int)] [(2 : Int)] (-1)
  have h5 := (claim_c2_amended 3 2 [(1 : Int), 1] [(0 : Int)] [(2 : Int)] (-1)).2.2.2.2
  exact ⟨h1, h2 (by decide) (by norm_num), h3 (by decide) (by decide),
    h4 (by decide) (by decide) (by decide), h5 (by decide) (by decide)⟩

/-- C10 (amended): a length-1 selector holding a negative value other than
`-1` is neither rejected nor treated as the "all" sentinel — the resolver
returns the singleton uint32 cast, which is at least `2^31`; whenever
`d ≤ 2^31` (any practically constructible container) that index is outside
`[0, d)`, and the bulk queries hand it directly to the sketch access, so the
out-of-range access branch is reachable from the public interface.  (For
`d > cast(v)`, possible only when `d > 2^31`, the access is in range.) -/
theorem claim_c10_amended (d : Nat) (v : Int) (c : VectorOfKll) (ranks : List ℚ)
    (hv1 : -(2 ^ 31) ≤ v) (hv2 : v < -1) (hd : d ≤ 2 ^ 31) (hc : c.d = d) :
    get_indices d [v] = .ok [castU32 v] ∧
    d ≤ castU32 v ∧
    get_indices d [v] ≠ .ok (List.range d) ∧
    get_quantiles c ranks [v] =
      .ok [ranks.map (kllGetQuantile (sketchAt c (castU32 v)))] := by
  have hne : v ≠ -1 := by omega
  have h1 : get_indices d [v] = .ok [castU32 v] := by
    show (if v = -1 then Except.ok (List.range d) else Except.ok [castU32 v]) = _
    rw [if_neg hne]
  have e31n : (2 : Nat) ^ 31 = 2147483648 := by norm_num
  rw [e31n] at hd
  have hcast : 2147483648 ≤ castU32 v := by
    unfold castU32
    have e32 : (2 : Int) ^ 32 = 4294967296 := by norm_num
    have e31 : -(2 : Int) ^ 31 = -2147483648 := by norm_num
    rw [e31] at hv1
    rw [e32]
    omega
  refine ⟨h1, by omega, ?_, ?_⟩
  · intro hcon
    rw [h1] at hcon
    injection hcon with hcon
    have hlen := congrArg List.length hcon
    simp [List.length_range] at hlen
    subst hlen
    rw [show List.range 1 = [0] from rfl] at hcon
    simp at hcon
    omega
  · unfold get_quantiles
    rw [hc, h1]
    rfl

/-- C10 counterexample to the unqualified claim: at the extreme width
`d = 2^32 - 1` the cast of `-2` is `2^32 - 2 < d`, so the resulting access
is *inside* `[0, d)` — the "out of range" consequence needs `d ≤ cast(v)`. -/
theorem claim_c10_counterexample :
    get_indices (2 ^ 32 - 1) [(-2 : Int)] = .ok [castU32 (-2)] ∧
    castU32 (-2) < 2 ^ 32 - 1 := by
  exact ⟨rfl, by decide⟩

/-- C10 witness: the selector `[-2]` on a width-4 container. -/
theorem claim_c10_amended_witness :
    get_indices 4 [(-2 : Int)] = .ok [castU32 (-2)] ∧
    4 ≤ castU32 (-2) ∧
    get_indices 4 [(-2 : Int)] ≠ .ok (List.range 4) ∧
    get_quantiles cEmpty4 [(0 : ℚ)] [(-2 : Int)] =
      .ok [[(0 : ℚ)].map (kllGetQuantile (sketchAt cEmpty4 (castU32 (-2))))] := by
  exact claim_c10_amended 4 (-2) cEmpty4 [(0 : ℚ)]
    (by norm_num) (by norm_num) (by norm_num) rfl

/-! ### Lemmas for the bulk queries -/

theorem except_map_ok {α β γ : Type} (f : α → β) (x : α) :
    (Except.ok x : Except γ α).map f = .ok (f x) := rfl

theorem kllPMF_length (s : KllSketch) (splits : List Int) :
    (kllPMF s splits).length = splits.length + 1 := by
  simp [kllPMF]

theorem kllCDF_length (s : KllSketch) (splits : List Int) :
    (kllCDF s splits).length = splits.length + 1 := by
  simp [kllCDF]

/-- C5 (amended): for a selector that resolves to `inds` (of length `m`;
equal to the selector itself except for the lone sentinel `-1`, which
expands to all `d` indices), every bulk query succeeds with exactly `m`
rows, row `r` being the standalone engine query on the sketch at channel
`inds[r]`; `get_quantiles`/`get_ranks` rows have one entry per query point
and `get_pmf`/`get_cdf` rows have `s + 1` entries for `s` split points;
`serialize` yields `m` blobs, blob `r` serializing channel `inds[r]`. -/
theorem claim_c5_amended (c : VectorOfKll) (isk : List Int) (inds : List Nat)
    (h : get_indices c.d isk = .ok inds)
    (ranks : List ℚ) (vals : List Int) (splits : List Int)
    (r : Nat) (hr : r < inds.length) :
    ((get_quantiles c ranks isk).map List.length = .ok inds.length) ∧
    ((get_quantiles c ranks isk).map (fun M => M.getD r []) =
      .ok (ranks.map (kllGetQuantile (sketchAt c (inds.getD r 0))))) ∧
    ((get_quantiles c ranks isk).map (fun M => (M.getD r []).length) =
      .ok ranks.length) ∧
    ((get_ranks c vals isk).map List.length = .ok inds.length) ∧
    ((get_ranks c vals isk).map (fun M => M.getD r []) =
      .ok (vals.map (kllGetRank (sketchAt c (inds.getD r 0))))) ∧
    ((get_ranks c vals isk).map (fun M => (M.getD r []).length) =
      .ok vals.length) ∧
    ((get_pmf c splits isk).map List.length = .ok inds.length) ∧
    ((get_pmf c splits isk).map (fun M => M.getD r []) =
      .ok (kllPMF (sketchAt c (inds.getD r 0)) splits)) ∧
    ((get_pmf c splits isk).map (fun M => (M.getD r []).length) =
      .ok (splits.length + 1)) ∧
    ((get_cdf c splits isk).map List.length = .ok inds.length) ∧
    ((get_cdf c splits isk).map (fun M => M.getD r []) =
      .ok (kllCDF (sketchAt c (inds.getD r 0)) splits)) ∧
    ((get_cdf c splits isk).map (fun M => (M.getD r []).length) =
      .ok (splits.length + 1)) ∧
    ((serialize c isk).map List.length = .ok inds.length) ∧
    ((serialize c isk).map (fun L => L.getD r (kllEmpty 0)) =
      .ok (kllSerialize (sketchAt c (inds.getD r 0)))) := by
  have hq : get_quantiles c ranks isk =
      .ok (inds.map (fun i => ranks.map (kllGetQuantile (sketchAt c i)))) := by
    unfold get_quantiles
    rw [h]
  have hrk : get_ranks c vals isk =
      .ok (inds.map (fun i => vals.map (kllGetRank (sketchAt c i)))) := by
    unfold get_ranks
    rw [h]
  have hp : get_pmf c splits isk =
      .ok (inds.map (fun i => kllPMF (sketchAt c i) splits)) := by
    unfold get_pmf
    rw [h]
  have hcdf : get_cdf c splits isk =
      .ok (inds.map (fun i => kllCDF (sketchAt c i) splits)) := by
    unfold get_cdf
    rw [h]
  have hs : serialize c isk =
      .ok (inds.map (fun i => kllSerialize (sketchAt c i))) := by
    unfold serialize
    rw [h]
  refine ⟨?_, ?_, ?_, ?_, ?_, ?_, ?_, ?_, ?_, ?_, ?_, ?_, ?_, ?_⟩
  · rw [hq, except_map_ok, List.length_map]
  · rw [hq, except_map_ok,
      getD_map (fun i => ranks.map (kllGetQuantile (sketchAt c i))) inds r 0 [] hr]
  · rw [hq, except_map_ok,
      getD_map (fun i => ranks.map (kllGetQuantile (sketchAt c i))) inds r 0 [] hr,
      List.length_map]
  · rw [hrk, except_map_ok, List.length_map]
  · rw [hrk, except_map_ok,
      getD_map (fun i => vals.map (kllGetRank (sketchAt c i))) inds r 0 [] hr]
  · rw [hrk, except_map_ok,
      getD_map (fun i => vals.map (kllGetRank (sketchAt c i))) inds r 0 [] hr,
      List.length_map]
  · rw [hp, except_map_ok, List.length_map]
  · rw [hp, except_map_ok,
      getD_map (fun i => kllPMF (sketchAt c i) splits) inds r 0 [] hr]
  · rw [hp, except_map_ok,
      getD_map (fun i => kllPMF (sketchAt c i) splits) inds r 0 [] hr,
      kllPMF_length]
  · rw [hcdf, except_map_ok, List.length_map]
  · rw [hcdf, except_map_ok,
      getD_map (fun i => kllCDF (sketchAt c i) splits) inds r 0 [] hr]
  · rw [hcdf, except_map_ok,
      getD_map (fun i => kllCDF (sketchAt c i) splits) inds r 0 [] hr,
      kllCDF_length]
  · rw [hs, except_map_ok, List.length_map]
  · rw [hs, except_map_ok,
      getD_map (fun i => kllSerialize (sketchAt c i)) inds r 0 (kllEmpty 0) hr]

/-- C5 counterexample to the literal claim: the sentinel selector `[-1]` is
a valid selector of length `m = 1`, yet on a width-2 container the bulk
query returns 2 rows, not 1 — the row count is `|resolve(isk, d)|`, not
`|isk|`. -/
theorem claim_c5_counterexample :
    ((get_quantiles cEmpty2 [(0 : ℚ)] [(-1 : Int)]).map List.length = .ok 2) ∧
    ([(-1 : Int)].length = 1) ∧ ((2 : Nat) ≠ 1) := by
  exact ⟨rfl, rfl, by decide⟩

/-- C5 witness: the amended shape facts on the empty width-2 container with
the explicit selector `[0, 1]`. -/
theorem claim_c5_amended_witness :
    ((get_quantiles cEmpty2 [(0 : ℚ)] [(0 : Int), 1]).map List.length = .ok 2) ∧
    ((get_quantiles cEmpty2 [(0 : ℚ)] [(0 : Int), 1]).map (fun M => M.getD 1 []) =
      .ok ([(0 : ℚ)].map (kllGetQuantile (sketchAt cEmpty2 ([0, 1].getD 1 0))))) ∧
    ((get_pmf cEmpty2 [(5 : Int)] [(0 : Int), 1]).map (fun M => (M.getD 1 []).length) =
      .ok 2) ∧
    ((serialize cEmpty2 [(0 : Int), 1]).map List.length = .ok 2) := by
  obtain ⟨h1, h2, h3, h4, h5, h6, h7, h8, h9, h10, h11, h12, h13, h14⟩ :=
    claim_c5_amended cEmpty2 [(0 : Int), 1] [0, 1] rfl
      [(0 : ℚ)] [(7 : Int)] [(5 : Int)] 1 (by decide)
  exact ⟨h1, h2, h9, h13⟩

/-! ### Deserialize scenario -/

/-- A width-2 container holding one value per channel, about to be
serialized. -/
def sample8 : VectorOfKll := ⟨200, 2, [⟨200, [10]⟩, ⟨200, [20]⟩]⟩

/-- `sample8` after the mutating update with the record `[5, 6]`. -/
def sample8m : VectorOfKll := ⟨200, 2, [⟨200, [10, 5]⟩, ⟨200, [20, 6]⟩]⟩

/-- C8 (intended behavior, the source's length argument being the `skStr`
slip noted on `deserialize`): `serialize([1])` captures channel 1; after a
mutating update, `deserialize(blob, 1)` replaces channel 1 with the
reconstructed sketch — restoring its pre-serialization state — while
channel 0 keeps its mutated state, untouched by the replacement. -/
theorem claim_c8_deserialize_frame :
    serialize sample8 [(1 : Int)] = .ok [⟨200, [20]⟩] ∧
    update sample8 (.d1 [5, 6]) = .ok sample8m ∧
    deserialize sample8m ⟨200, [20]⟩ 1 =
      .ok ⟨200, 2, [⟨200, [10, 5]⟩, ⟨200, [20]⟩]⟩ ∧
    sketchAt (⟨200, 2, [⟨200, [10, 5]⟩, ⟨200, [20]⟩]⟩ : VectorOfKll) 1 =
      sketchAt sample8 1 ∧
    sketchAt (⟨200, 2, [⟨200, [10, 5]⟩, ⟨200, [20]⟩]⟩ : VectorOfKll) 0 =
      sketchAt sample8m 0 := by
  exact ⟨rfl, rfl, rfl, rfl, rfl⟩

/-! ### Textual summary -/

theorem joinedBy_shift (sep a b : String) (t : List String) :
    joinedBy sep (a :: b :: t) = joinedBy sep ((a ++ sep ++ b) :: t) := rfl

theorem joinedBy_length (sep : String) :
    ∀ (t : List String) (a : String),
    (joinedBy sep (a :: t)).length =
      a.length + (t.map (fun s => sep.length + s.length)).sum := by
  intro t
  induction t with
  | nil => intro a; simp [joinedBy]
  | cons b t' ih =>
    intro a
    rw [joinedBy_shift, ih (a ++ sep ++ b)]
    simp only [List.map_cons, List.sum_cons, String.length_append]
    omega

theorem sum_map_two_lt (t : List String) (hne : t ≠ []) :
    (t.map (fun s => 1 + s.length)).sum < (t.map (fun s => 2 + s.length)).sum := by
  induction t with
  | nil => exact absurd rfl hne
  | cons b t' ih =>
    cases t' with
    | nil => simp
    | cons c t2 =>
      have hlt := ih (by simp)
      simp only [List.map_cons, List.sum_cons] at hlt ⊢
      omega

/-- C9 (amended): `to_string` joins the `d` per-sketch summaries in channel
order with a *single newline* (`"\n"`), not a blank line; the `"\n\n"`
boundary consumers split on arises only because each engine summary itself
ends with a newline.  Joining with `"\n\n"` as claimed would produce a
strictly longer (hence different) string whenever `d ≥ 2`. -/
theorem claim_c9_amended (c : VectorOfKll) (pl pi : Bool) :
    to_string c pl pi = joinedBy "\n" (c.sketches.map (kllToString pl pi)) ∧
    (2 ≤ c.sketches.length →
      to_string c pl pi ≠ joinedBy "\n\n" (c.sketches.map (kllToString pl pi))) := by
  have h1 : to_string c pl pi = joinedBy "\n" (c.sketches.map (kllToString pl pi)) := by
    rcases hL : c.sketches.map (kllToString pl pi) with _ | ⟨a, t⟩ <;>
      simp [to_string, joinedBy, hL]
  refine ⟨h1, ?_⟩
  intro hlen hEq
  rw [h1] at hEq
  have hmlen : 2 ≤ (c.sketches.map (kllToString pl pi)).length := by
    rw [List.length_map]; exact hlen
  rcases hL : c.sketches.map (kllToString pl pi) with _ | ⟨a, t0⟩
  · rw [hL] at hmlen; simp at hmlen
  rcases t0 with _ | ⟨b, t⟩
  · rw [hL] at hmlen; simp at hmlen
  rw [hL] at hEq
  have hstr := congrArg String.length hEq
  rw [joinedBy_length "\n" (b :: t) a, joinedBy_length "\n\n" (b :: t) a] at hstr
  have e1 : ("\n" : String).length = 1 := rfl
  have e2 : ("\n\n" : String).length = 2 := rfl
  simp only [e1, e2] at hstr
  have hlt := sum_map_two_lt (b :: t) (by simp)
  omega

/-- C9 counterexample: on a concrete width-2 container the string returned
by `to_string` differs from the claimed "summaries joined by a blank line
(`\n\n` boundary)". -/
theorem claim_c9_counterexample :
    to_string cEmpty2 false false ≠
      joinedBy "\n\n" (cEmpty2.sketches.map (kllToString false false)) := by
  decide

/-- C9 witness: the amended join on a concrete width-2 container. -/
theorem claim_c9_amended_witness :
    to_string sampleA false false =
      joinedBy "\n" (sampleA.sketches.map (kllToString false false)) ∧
    to_string sampleA false false ≠
      joinedBy "\n\n" (sampleA.sketches.map (kllToString false false)) := by
  obtain ⟨h1, h2⟩ := claim_c9_amended sampleA false false
  exact ⟨h1, h2 (by decide)⟩

end VectorKll
